import Mathlib

/-!
Verification of the image-caption utility (`caption_generator.py`).

Strings are modelled as `List Char` (Unicode code points, ASCII in all
relevant inputs).  The regular-expression substitution
`re.sub(r'\b(a picture|an image|a photo|a photograph) of\b', '', s, flags=IGNORECASE)`
is embedded as a left-to-right scan (`scanAux`) that mirrors the regex
engine: at each position it tries the four alternatives (each followed by
`" of"`) in order, checks the word boundaries against the ORIGINAL
neighbouring characters, deletes a match and resumes scanning after it.
Python's `str.strip` / `str.capitalize` are embedded as `pyStrip` /
`pyCapitalize` (ASCII case model, matching Python on all ASCII text).

The fallible external world of `process_image` (image decoding, model
inference, token decoding) is modelled as an oracle
`env : List Char → Except (List Char) (List Char)` mapping a path either
to the raw decoded caption or to an exception message; the `try/except`
of the source then becomes a `match` on that `Except`.
-/

/-- Code point of a character. -/
abbrev cp (c : Char) : Nat := c.toNat

theorem toNat_ofNat_small {n : Nat} (h : n < 55296) : (Char.ofNat n).toNat = n := by
  have hv : n.isValidChar := Or.inl h
  rw [Char.ofNat, dif_pos hv]
  rfl

theorem char_eq_of_toNat_eq {a b : Char} (h : a.toNat = b.toNat) : a = b := by
  apply Char.ext
  exact UInt32.toNat.inj h

theorem toLower_toNat (c : Char) :
    (Char.toLower c).toNat = if c.toNat ≥ 65 ∧ c.toNat ≤ 90 then c.toNat + 32 else c.toNat := by
  simp only [Char.toLower]
  split_ifs with h
  · exact toNat_ofNat_small (by omega)
  · rfl

theorem toUpper_toNat (c : Char) :
    (Char.toUpper c).toNat = if c.toNat ≥ 97 ∧ c.toNat ≤ 122 then c.toNat - 32 else c.toNat := by
  simp only [Char.toUpper]
  split_ifs with h
  · exact toNat_ofNat_small (by omega)
  · rfl

theorem toLower_toLower (c : Char) : (Char.toLower (Char.toLower c)) = Char.toLower c := by
  apply char_eq_of_toNat_eq
  rw [toLower_toNat, toLower_toNat]
  split_ifs <;> omega

theorem toLower_toUpper (c : Char) : (Char.toLower (Char.toUpper c)) = Char.toLower c := by
  apply char_eq_of_toNat_eq
  rw [toLower_toNat, toUpper_toNat, toLower_toNat]
  split_ifs <;> omega

theorem toUpper_toUpper (c : Char) : (Char.toUpper (Char.toUpper c)) = Char.toUpper c := by
  apply char_eq_of_toNat_eq
  rw [toUpper_toNat, toUpper_toNat]
  split_ifs <;> omega

/-- Python regex `\w` on ASCII: letters, digits, underscore. -/
def isWordChar (c : Char) : Bool :=
  decide ((48 ≤ c.toNat ∧ c.toNat ≤ 57) ∨ (65 ≤ c.toNat ∧ c.toNat ≤ 90) ∨
          (97 ≤ c.toNat ∧ c.toNat ≤ 122) ∨ c.toNat = 95)

/-- ASCII letter. -/
def isLetterC (c : Char) : Bool :=
  decide ((65 ≤ c.toNat ∧ c.toNat ≤ 90) ∨ (97 ≤ c.toNat ∧ c.toNat ≤ 122))

/-- Python `str.isspace` on ASCII: space, tab, newline, vertical tab, form feed, carriage return. -/
def pyIsSpace (c : Char) : Bool :=
  decide (c.toNat = 32 ∨ (9 ≤ c.toNat ∧ c.toNat ≤ 13))

theorem isWordChar_toLower (c : Char) : isWordChar (Char.toLower c) = isWordChar c := by
  unfold isWordChar
  rw [decide_eq_decide, toLower_toNat]
  split_ifs <;> omega

theorem isWordChar_toUpper (c : Char) : isWordChar (Char.toUpper c) = isWordChar c := by
  unfold isWordChar
  rw [decide_eq_decide, toUpper_toNat]
  split_ifs <;> omega

theorem pyIsSpace_toLower (c : Char) : pyIsSpace (Char.toLower c) = pyIsSpace c := by
  unfold pyIsSpace
  rw [decide_eq_decide, toLower_toNat]
  split_ifs <;> omega

theorem pyIsSpace_toUpper (c : Char) : pyIsSpace (Char.toUpper c) = pyIsSpace c := by
  unfold pyIsSpace
  rw [decide_eq_decide, toUpper_toNat]
  split_ifs <;> omega

theorem not_isWordChar_of_pyIsSpace {c : Char} (h : pyIsSpace c = true) :
    isWordChar c = false := by
  unfold pyIsSpace at h
  unfold isWordChar
  rw [decide_eq_true_eq] at h
  rw [decide_eq_false_iff_not]
  omega

/-- Case-insensitive character comparison, as the regex engine performs it
under `re.IGNORECASE` (ASCII). -/
def lowEq (a b : Char) : Bool := Char.toLower a == Char.toLower b

theorem lowEq_iff {a b : Char} : lowEq a b = true ↔ Char.toLower a = Char.toLower b := by
  unfold lowEq
  exact beq_iff_eq

theorem isWordChar_of_lowEq_letter {a b : Char} (hb : isLetterC b = true)
    (h : lowEq a b = true) : isWordChar a = true := by
  rw [lowEq_iff] at h
  unfold isLetterC at hb
  rw [decide_eq_true_eq] at hb
  have ha := toLower_toNat a
  have hbn := toLower_toNat b
  rw [h] at ha
  unfold isWordChar
  rw [decide_eq_true_eq]
  split_ifs at ha hbn <;> omega

theorem not_lowEq_of_not_word {a b : Char} (hb : isLetterC b = true)
    (ha : isWordChar a = false) : lowEq a b = false := by
  cases hle : lowEq a b
  · rfl
  · rw [isWordChar_of_lowEq_letter hb hle] at ha
    cases ha

/-- The four regex alternatives, each already followed by `" of"`. -/
def picturePat : List Char := ['a', ' ', 'p', 'i', 'c', 't', 'u', 'r', 'e', ' ', 'o', 'f']

def imagePat : List Char := ['a', 'n', ' ', 'i', 'm', 'a', 'g', 'e', ' ', 'o', 'f']

def photoPat : List Char := ['a', ' ', 'p', 'h', 'o', 't', 'o', ' ', 'o', 'f']

def photographPat : List Char :=
  ['a', ' ', 'p', 'h', 'o', 't', 'o', 'g', 'r', 'a', 'p', 'h', ' ', 'o', 'f']

/-- Does `p` match case-insensitively at the head of `l`? -/
def startsWithCI : List Char → List Char → Bool
  | [], _ => true
  | _ :: _, [] => false
  | q :: qs, c :: rest => lowEq c q && startsWithCI qs rest

/-- The trailing `\b` of the pattern: satisfied at end of input or before a
non-word character (the last pattern character `f` is a word character). -/
def endB : List Char → Bool
  | [] => true
  | c :: _ => !isWordChar c

/-- Full candidate match at the head of `l`: case-insensitive pattern match
plus the trailing word boundary. -/
def matchCI (p l : List Char) : Bool := startsWithCI p l && endB (List.drop p.length l)

/-- Match attempt at the current scan position.  `w` records whether the
character PRECEDING the position (in the original string) is a word
character; since every alternative begins with the word character `a`, the
leading `\b` holds exactly when `w = false`.  Alternatives are tried in
the order they appear in the regex. -/
def matchLen : Bool → List Char → Option Nat
  | true, _ => none
  | false, l =>
    if matchCI picturePat l then some picturePat.length
    else if matchCI imagePat l then some imagePat.length
    else if matchCI photoPat l then some photoPat.length
    else if matchCI photographPat l then some photographPat.length
    else none

/-- The scan of `re.sub(pattern, '', s)`: emit unmatched characters, delete
matched spans, scan left to right without rescanning deleted text.
`skip > 0` means the scanner is inside a deleted match with `skip`
characters of it still to consume; `w` tracks word-character-ness of the
previous character of the ORIGINAL string (matching how the regex engine
evaluates `\b` on the subject string, not on the replaced text). -/
def scanAux : Nat → Bool → List Char → List Char
  | _, _, [] => []
  | skip + 1, _, _ :: rest => scanAux skip true rest
  | 0, w, c :: rest =>
    match matchLen w (c :: rest) with
    | some n => scanAux (n - 1) true rest
    | none => c :: scanAux 0 (isWordChar c) rest

/-- `re.sub(r'\b(a picture|an image|a photo|a photograph) of\b', '', s, flags=re.IGNORECASE)`. -/
def subAll (l : List Char) : List Char := scanAux 0 false l

/-- Python `str.strip()`. -/
def pyStrip (l : List Char) : List Char :=
  List.reverse (List.dropWhile pyIsSpace (List.reverse (List.dropWhile pyIsSpace l)))

/-- Python `str.capitalize()`: first character uppercased, ALL remaining
characters lowercased. -/
def pyCapitalize : List Char → List Char
  | [] => []
  | c :: rest => Char.toUpper c :: rest.map Char.toLower

/-- `clean_caption` from `caption_generator.py`: regex substitution, strip,
capitalize. -/
def clean_caption (l : List Char) : List Char := pyCapitalize (pyStrip (subAll l))

example : clean_caption ("a photo of a dog running".data) = ("A dog running".data) := by decide

example : clean_caption ("AN IMAGE OF a cat".data) = ("A cat".data) := by decide

example : clean_caption ("  a picture of an image of trees  ".data) = ("Trees".data) := by decide

example : clean_caption ("NYC at night".data) = ("Nyc at night".data) := by decide

/-! ### Basic facts about the scanner -/

theorem matchLen_true (l : List Char) : matchLen true l = none := rfl

theorem scanAux_nil (k : Nat) (w : Bool) : scanAux k w [] = [] := by
  cases k <;> rfl

theorem scanAux_succ (k : Nat) (w : Bool) (c : Char) (rest : List Char) :
    scanAux (k + 1) w (c :: rest) = scanAux k true rest := rfl

theorem scanAux_zero_cons (w : Bool) (c : Char) (rest : List Char) :
    scanAux 0 w (c :: rest) =
      match matchLen w (c :: rest) with
      | some n => scanAux (n - 1) true rest
      | none => c :: scanAux 0 (isWordChar c) rest := rfl

theorem scanAux_cons_none {w : Bool} {c : Char} {rest : List Char}
    (h : matchLen w (c :: rest) = none) :
    scanAux 0 w (c :: rest) = c :: scanAux 0 (isWordChar c) rest := by
  rw [scanAux_zero_cons, h]

theorem scanAux_cons_some {w : Bool} {c : Char} {rest : List Char} {n : Nat}
    (h : matchLen w (c :: rest) = some n) :
    scanAux 0 w (c :: rest) = scanAux (n - 1) true rest := by
  rw [scanAux_zero_cons, h]

theorem scanAux_skip : ∀ (k : Nat) (w : Bool) (l : List Char),
    scanAux (k + 1) w l = scanAux 0 true (List.drop (k + 1) l) := by
  intro k w l
  induction l generalizing k w with
  | nil => rw [List.drop_nil, scanAux_nil, scanAux_nil]
  | cons c rest ih =>
    rw [scanAux_succ, List.drop_succ_cons]
    cases k with
    | zero => rw [List.drop_zero]
    | succ k2 => exact ih k2 true

theorem matchCI_nil (l : List Char) : matchCI [] l = endB l := by
  simp [matchCI, startsWithCI]

theorem matchCI_cons_nil (q : Char) (qs : List Char) : matchCI (q :: qs) [] = false := by
  simp [matchCI, startsWithCI]

theorem matchCI_cons (q : Char) (qs : List Char) (c : Char) (rest : List Char) :
    matchCI (q :: qs) (c :: rest) = (lowEq c q && matchCI qs rest) := by
  simp only [matchCI, startsWithCI, List.length_cons, List.drop_succ_cons, Bool.and_assoc]

theorem matchLen_some_elim {w : Bool} {l : List Char} {n : Nat} (h : matchLen w l = some n) :
    w = false ∧
    ((matchCI picturePat l = true ∧ n = picturePat.length) ∨
     (matchCI imagePat l = true ∧ n = imagePat.length) ∨
     (matchCI photoPat l = true ∧ n = photoPat.length) ∨
     (matchCI photographPat l = true ∧ n = photographPat.length)) := by
  cases w
  · refine ⟨rfl, ?_⟩
    simp only [matchLen] at h
    split_ifs at h with h1 h2 h3 h4
    · exact Or.inl ⟨h1, (Option.some.inj h).symm⟩
    · exact Or.inr (Or.inl ⟨h2, (Option.some.inj h).symm⟩)
    · exact Or.inr (Or.inr (Or.inl ⟨h3, (Option.some.inj h).symm⟩))
    · exact Or.inr (Or.inr (Or.inr ⟨h4, (Option.some.inj h).symm⟩))
  · cases h

theorem matchLen_ne_none_of_matchCI {l : List Char}
    (h : matchCI picturePat l = true ∨ matchCI imagePat l = true ∨
         matchCI photoPat l = true ∨ matchCI photographPat l = true) :
    matchLen false l ≠ none := by
  simp only [matchLen]
  split_ifs with h1 h2 h3 h4 <;> simp_all

/-! ### Pattern shape -/

/-- Shape of the (suffixes of the) regex alternatives: every character is an
ASCII letter or a space, no two adjacent spaces, and the last character is a
letter. -/
def wfSeg : List Char → Bool
  | [] => true
  | [c] => isLetterC c
  | c :: d :: rest => (isLetterC c || (c == ' ' && isLetterC d)) && wfSeg (d :: rest)

def headIsLetter : List Char → Bool
  | [] => false
  | c :: _ => isLetterC c

theorem wfSeg_tail {q : Char} {qs : List Char} (h : wfSeg (q :: qs) = true) :
    wfSeg qs = true := by
  cases qs with
  | nil => rfl
  | cons d ds =>
    simp only [wfSeg, Bool.and_eq_true] at h
    exact h.2

theorem wfSeg_head_after {q : Char} {qs : List Char} (hwf : wfSeg (q :: qs) = true)
    (hq : isLetterC q = false) : headIsLetter qs = true := by
  cases qs with
  | nil =>
    simp only [wfSeg] at hwf
    rw [hq] at hwf
    cases hwf
  | cons d ds =>
    simp only [wfSeg, Bool.and_eq_true] at hwf
    have h1 := hwf.1
    rw [hq, Bool.false_or, Bool.and_eq_true] at h1
    simpa [headIsLetter] using h1.2

/-! ### Transfer: a head match on the scanner output yields one on the input.

If a pattern suffix `p` (well-formed, and starting with a letter whenever the
scanner's previous character is a word character boundary-off) matches at the
head of `scanAux 0 w l` including its trailing word boundary, then it already
matched at the head of `l`.  Intuition: while the pattern is being consumed no
deletion can happen underneath it, because a deletion demands a word boundary
on its left (so the preceding pattern character would be a space) and exposes a
non-word character (or the end) on its right, which cannot match the letter
that must follow a space in a well-formed pattern. -/

theorem transferMatch : ∀ (p : List Char), wfSeg p = true →
    ∀ (l : List Char) (w : Bool), (w = false → headIsLetter p = true) →
    matchCI p (scanAux 0 w l) = true → matchCI p l = true := by
  intro p
  induction p with
  | nil =>
    intro _ l w hinv hm
    have hw : w = true := by
      cases w
      · exact absurd (hinv rfl) (by simp [headIsLetter])
      · rfl
    subst hw
    cases l with
    | nil => simpa using hm
    | cons c rest =>
      rw [matchCI_nil] at hm ⊢
      rw [scanAux_cons_none (matchLen_true _)] at hm
      simpa [endB] using hm
  | cons q qs ih =>
    intro hwf l w hinv hm
    cases l with
    | nil =>
      rw [scanAux_nil, matchCI_cons_nil] at hm
      cases hm
    | cons c rest =>
      cases hml : matchLen w (c :: rest) with
      | none =>
        rw [scanAux_cons_none hml] at hm
        rw [matchCI_cons, Bool.and_eq_true] at hm ⊢
        obtain ⟨h1, h2⟩ := hm
        refine ⟨h1, ih (wfSeg_tail hwf) rest (isWordChar c) ?_ h2⟩
        intro hcw
        apply wfSeg_head_after hwf
        cases hq : isLetterC q
        · rfl
        · exfalso
          have hword := isWordChar_of_lowEq_letter hq h1
          rw [hcw] at hword
          cases hword
      | some n =>
        obtain ⟨hw, hcases⟩ := matchLen_some_elim hml
        subst hw
        have hq : isLetterC q = true := by
          simpa [headIsLetter] using hinv rfl
        rw [scanAux_cons_some hml] at hm
        have hn1 : 1 ≤ n := by
          rcases hcases with ⟨_, rfl⟩ | ⟨_, rfl⟩ | ⟨_, rfl⟩ | ⟨_, rfl⟩ <;> decide
        have hrw : scanAux (n - 1) true rest = scanAux 0 true (List.drop (n - 1) rest) := by
          cases hd : n - 1 with
          | zero => rw [List.drop_zero]
          | succ k => exact scanAux_skip k true rest
        rw [hrw] at hm
        have hdr : List.drop (n - 1) rest = List.drop n (c :: rest) := by
          cases n with
          | zero => exact absurd hn1 (by omega)
          | succ m => simp
        rw [hdr] at hm
        have hend : endB (List.drop n (c :: rest)) = true := by
          rcases hcases with ⟨h, rfl⟩ | ⟨h, rfl⟩ | ⟨h, rfl⟩ | ⟨h, rfl⟩ <;>
            (simp only [matchCI, Bool.and_eq_true] at h; exact h.2)
        cases hrest : List.drop n (c :: rest) with
        | nil =>
          rw [hrest, scanAux_nil, matchCI_cons_nil] at hm
          cases hm
        | cons r rs =>
          rw [hrest] at hm hend
          have hrw2 : isWordChar r = false := by simpa [endB] using hend
          rw [scanAux_cons_none (matchLen_true _)] at hm
          rw [matchCI_cons, Bool.and_eq_true] at hm
          have hword := isWordChar_of_lowEq_letter hq hm.1
          rw [hrw2] at hword
          cases hword

/-! ### No residual matches in scanner output -/

/-- `noMatchFrom w l`: scanning `l` with previous-word flag `w`, no position
of `l` carries a boundary-delimited case-insensitive occurrence of any of the
four alternatives. -/
def noMatchFrom : Bool → List Char → Bool
  | _, [] => true
  | w, c :: rest => (matchLen w (c :: rest)).isNone && noMatchFrom (isWordChar c) rest

theorem matchCI_head_transfer {a : Char} {tl : List Char}
    (ha : isLetterC a = true) (hwf : wfSeg tl = true)
    {c : Char} {rest : List Char}
    (h : matchCI (a :: tl) (c :: scanAux 0 (isWordChar c) rest) = true) :
    matchCI (a :: tl) (c :: rest) = true := by
  rw [matchCI_cons, Bool.and_eq_true] at h ⊢
  obtain ⟨h1, h2⟩ := h
  have hcw : isWordChar c = true := isWordChar_of_lowEq_letter ha h1
  refine ⟨h1, transferMatch tl hwf rest (isWordChar c) ?_ h2⟩
  intro hf
  rw [hcw] at hf
  cases hf

theorem matchCI_false_head_nonword {a : Char} (tl : List Char) (ha : isLetterC a = true)
    {r : Char} (hr : isWordChar r = false) (X : List Char) :
    matchCI (a :: tl) (r :: X) = false := by
  rw [matchCI_cons, not_lowEq_of_not_word ha hr, Bool.false_and]

theorem matchLen_none_head_nonword {r : Char} (hr : isWordChar r = false)
    (w : Bool) (X : List Char) : matchLen w (r :: X) = none := by
  cases w
  · simp only [matchLen]
    rw [show matchCI picturePat (r :: X) = false from matchCI_false_head_nonword _ (by decide) hr X,
        show matchCI imagePat (r :: X) = false from matchCI_false_head_nonword _ (by decide) hr X,
        show matchCI photoPat (r :: X) = false from matchCI_false_head_nonword _ (by decide) hr X,
        show matchCI photographPat (r :: X) = false from matchCI_false_head_nonword _ (by decide) hr X]
    simp
  · rfl

theorem scanNoMatchN : ∀ (N : Nat) (w : Bool) (l : List Char), l.length ≤ N →
    noMatchFrom w (scanAux 0 w l) = true := by
  intro N
  induction N with
  | zero =>
    intro w l hl
    have hnil : l = [] := List.length_eq_zero.mp (by omega)
    subst hnil
    rw [scanAux_nil]
    rfl
  | succ N ihN =>
    intro w l hl
    cases l with
    | nil => rw [scanAux_nil]; rfl
    | cons c rest =>
      cases hml : matchLen w (c :: rest) with
      | none =>
        rw [scanAux_cons_none hml]
        simp only [noMatchFrom, Bool.and_eq_true]
        constructor
        · cases hml2 : matchLen w (c :: scanAux 0 (isWordChar c) rest) with
          | none => rfl
          | some m =>
            exfalso
            obtain ⟨hw, hcases⟩ := matchLen_some_elim hml2
            subst hw
            apply matchLen_ne_none_of_matchCI ?_ hml
            rcases hcases with ⟨h, _⟩ | ⟨h, _⟩ | ⟨h, _⟩ | ⟨h, _⟩
            · exact Or.inl (matchCI_head_transfer (by decide) (by decide) h)
            · exact Or.inr (Or.inl (matchCI_head_transfer (by decide) (by decide) h))
            · exact Or.inr (Or.inr (Or.inl (matchCI_head_transfer (by decide) (by decide) h)))
            · exact Or.inr (Or.inr (Or.inr (matchCI_head_transfer (by decide) (by decide) h)))
        · apply ihN (isWordChar c) rest
          simp only [List.length_cons] at hl
          omega
      | some n =>
        rw [scanAux_cons_some hml]
        obtain ⟨hw, hcases⟩ := matchLen_some_elim hml
        subst hw
        have hn1 : 1 ≤ n := by
          rcases hcases with ⟨_, rfl⟩ | ⟨_, rfl⟩ | ⟨_, rfl⟩ | ⟨_, rfl⟩ <;> decide
        have hrw : scanAux (n - 1) true rest = scanAux 0 true (List.drop (n - 1) rest) := by
          cases hd : n - 1 with
          | zero => rw [List.drop_zero]
          | succ k => exact scanAux_skip k true rest
        rw [hrw]
        have hdr : List.drop (n - 1) rest = List.drop n (c :: rest) := by
          cases n with
          | zero => exact absurd hn1 (by omega)
          | succ m => simp
        have hend : endB (List.drop n (c :: rest)) = true := by
          rcases hcases with ⟨h, rfl⟩ | ⟨h, rfl⟩ | ⟨h, rfl⟩ | ⟨h, rfl⟩ <;>
            (simp only [matchCI, Bool.and_eq_true] at h; exact h.2)
        rw [hdr]
        cases hrest : List.drop n (c :: rest) with
        | nil => rw [scanAux_nil]; rfl
        | cons r rs =>
          rw [hrest] at hend
          have hr : isWordChar r = false := by simpa [endB] using hend
          rw [scanAux_cons_none (matchLen_true _)]
          simp only [noMatchFrom, Bool.and_eq_true]
          constructor
          · rw [matchLen_none_head_nonword hr]
            rfl
          · apply ihN (isWordChar r) rs
            have hlen := congrArg List.length hrest
            simp only [List.length_drop, List.length_cons] at hlen
            simp only [List.length_cons] at hl
            omega

theorem scanNoMatch (w : Bool) (l : List Char) : noMatchFrom w (scanAux 0 w l) = true :=
  scanNoMatchN l.length w l (Nat.le_refl _)

theorem scanFixedOfNoMatch : ∀ (l : List Char) (w : Bool), noMatchFrom w l = true →
    scanAux 0 w l = l := by
  intro l
  induction l with
  | nil => intro w _; rw [scanAux_nil]
  | cons c rest ih =>
    intro w h
    simp only [noMatchFrom, Bool.and_eq_true] at h
    obtain ⟨h1, h2⟩ := h
    have hml : matchLen w (c :: rest) = none := Option.isNone_iff_eq_none.mp h1
    rw [scanAux_cons_none hml, ih (isWordChar c) h2]

/-! ### The no-match property survives strip and capitalize -/

theorem noMatch_dropWhile (l : List Char) (h : noMatchFrom false l = true) :
    noMatchFrom false (List.dropWhile pyIsSpace l) = true := by
  induction l with
  | nil => exact h
  | cons c rest ih =>
    rw [List.dropWhile_cons]
    split_ifs with hc
    · apply ih
      simp only [noMatchFrom, Bool.and_eq_true] at h
      have h2 := h.2
      rw [not_isWordChar_of_pyIsSpace hc] at h2
      exact h2
    · exact h

theorem startsWithCI_append (p : List Char) : ∀ (l t : List Char),
    startsWithCI p l = true → startsWithCI p (l ++ t) = true := by
  induction p with
  | nil => intro l t _; rfl
  | cons q qs ih =>
    intro l t h
    cases l with
    | nil => cases h
    | cons c rest =>
      rw [List.cons_append]
      simp only [startsWithCI, Bool.and_eq_true] at h ⊢
      exact ⟨h.1, ih rest t h.2⟩

theorem startsWithCI_le_length (p : List Char) : ∀ (l : List Char),
    startsWithCI p l = true → p.length ≤ l.length := by
  induction p with
  | nil => intro l _; simp
  | cons q qs ih =>
    intro l h
    cases l with
    | nil => cases h
    | cons c rest =>
      simp only [startsWithCI, Bool.and_eq_true] at h
      have := ih rest h.2
      simp only [List.length_cons]
      omega

theorem matchCI_append_space (p l t : List Char) (ht : ∀ c ∈ t, pyIsSpace c = true)
    (h : matchCI p l = true) : matchCI p (l ++ t) = true := by
  simp only [matchCI, Bool.and_eq_true] at h
  obtain ⟨h1, h2⟩ := h
  have hlen := startsWithCI_le_length p l h1
  simp only [matchCI, Bool.and_eq_true]
  refine ⟨startsWithCI_append p l t h1, ?_⟩
  rw [List.drop_append_of_le_length hlen]
  cases hdl : List.drop p.length l with
  | nil =>
    rw [List.nil_append]
    cases t with
    | nil => rfl
    | cons d ds =>
      have hd := ht d (by simp)
      simp [endB, not_isWordChar_of_pyIsSpace hd]
  | cons d ds =>
    rw [hdl] at h2
    rw [List.cons_append]
    simpa [endB] using h2

theorem noMatch_append_space : ∀ (l t : List Char) (w : Bool),
    (∀ c ∈ t, pyIsSpace c = true) → noMatchFrom w (l ++ t) = true →
    noMatchFrom w l = true := by
  intro l
  induction l with
  | nil => intro t w _ _; rfl
  | cons c rest ih =>
    intro t w ht h
    rw [List.cons_append] at h
    simp only [noMatchFrom, Bool.and_eq_true] at h ⊢
    obtain ⟨h1, h2⟩ := h
    constructor
    · cases hml : matchLen w (c :: rest) with
      | none => rfl
      | some n =>
        exfalso
        obtain ⟨hw, hcases⟩ := matchLen_some_elim hml
        subst hw
        apply matchLen_ne_none_of_matchCI ?_ (Option.isNone_iff_eq_none.mp h1)
        rcases hcases with ⟨h, _⟩ | ⟨h, _⟩ | ⟨h, _⟩ | ⟨h, _⟩
        · exact Or.inl (by
            rw [← List.cons_append]
            exact matchCI_append_space _ _ t ht h)
        · exact Or.inr (Or.inl (by
            rw [← List.cons_append]
            exact matchCI_append_space _ _ t ht h))
        · exact Or.inr (Or.inr (Or.inl (by
            rw [← List.cons_append]
            exact matchCI_append_space _ _ t ht h)))
        · exact Or.inr (Or.inr (Or.inr (by
            rw [← List.cons_append]
            exact matchCI_append_space _ _ t ht h)))
    · exact ih t (isWordChar c) ht h2

theorem strip_decomp (l : List Char) :
    List.dropWhile pyIsSpace l =
      pyStrip l ++
        List.reverse (List.takeWhile pyIsSpace (List.reverse (List.dropWhile pyIsSpace l))) := by
  unfold pyStrip
  rw [← List.reverse_append, List.takeWhile_append_dropWhile, List.reverse_reverse]

theorem noMatch_pyStrip (l : List Char) (h : noMatchFrom false l = true) :
    noMatchFrom false (pyStrip l) = true := by
  have hm : noMatchFrom false (List.dropWhile pyIsSpace l) = true := noMatch_dropWhile l h
  apply noMatch_append_space (pyStrip l)
      (List.reverse (List.takeWhile pyIsSpace (List.reverse (List.dropWhile pyIsSpace l)))) false
  · intro c hc
    rw [List.mem_reverse] at hc
    exact List.mem_takeWhile_imp hc
  · rw [← strip_decomp]
    exact hm

theorem lowEq_congr {a b : Char} (hab : Char.toLower a = Char.toLower b) (q : Char) :
    lowEq a q = lowEq b q := by
  unfold lowEq
  rw [hab]

theorem isWordChar_congr {a b : Char} (hab : Char.toLower a = Char.toLower b) :
    isWordChar a = isWordChar b := by
  rw [← isWordChar_toLower a, hab, isWordChar_toLower]

theorem startsWithCI_sameLow (p : List Char) : ∀ (l m : List Char),
    List.map Char.toLower l = List.map Char.toLower m →
    startsWithCI p l = startsWithCI p m := by
  induction p with
  | nil => intro l m _; rfl
  | cons q qs ih =>
    intro l m h
    cases l with
    | nil =>
      cases m with
      | nil => rfl
      | cons b bs => simp at h
    | cons a as =>
      cases m with
      | nil => simp at h
      | cons b bs =>
        simp only [List.map_cons, List.cons.injEq] at h
        simp only [startsWithCI]
        rw [lowEq_congr h.1 q, ih as bs h.2]

theorem endB_sameLow : ∀ (l m : List Char),
    List.map Char.toLower l = List.map Char.toLower m → endB l = endB m := by
  intro l m h
  cases l with
  | nil =>
    cases m with
    | nil => rfl
    | cons b bs => simp at h
  | cons a as =>
    cases m with
    | nil => simp at h
    | cons b bs =>
      simp only [List.map_cons, List.cons.injEq] at h
      simp only [endB]
      rw [isWordChar_congr h.1]

theorem matchCI_sameLow (p : List Char) {l m : List Char}
    (h : List.map Char.toLower l = List.map Char.toLower m) :
    matchCI p l = matchCI p m := by
  unfold matchCI
  rw [startsWithCI_sameLow p l m h]
  congr 1
  apply endB_sameLow
  rw [List.map_drop, List.map_drop, h]

theorem matchLen_sameLow (w : Bool) {l m : List Char}
    (h : List.map Char.toLower l = List.map Char.toLower m) :
    matchLen w l = matchLen w m := by
  cases w
  · simp only [matchLen]
    rw [matchCI_sameLow picturePat h, matchCI_sameLow imagePat h,
        matchCI_sameLow photoPat h, matchCI_sameLow photographPat h]
  · rfl

theorem noMatch_sameLow : ∀ (l m : List Char) (w : Bool),
    List.map Char.toLower l = List.map Char.toLower m →
    noMatchFrom w l = noMatchFrom w m := by
  intro l
  induction l with
  | nil =>
    intro m w h
    cases m with
    | nil => rfl
    | cons b bs => simp at h
  | cons a as ih =>
    intro m w h
    cases m with
    | nil => simp at h
    | cons b bs =>
      have hfull := h
      simp only [List.map_cons, List.cons.injEq] at h
      simp only [noMatchFrom]
      rw [matchLen_sameLow w hfull, isWordChar_congr h.1, ih bs (isWordChar b) h.2]

theorem pyCapitalize_sameLow (l : List Char) :
    List.map Char.toLower (pyCapitalize l) = List.map Char.toLower l := by
  cases l with
  | nil => rfl
  | cons c rest =>
    simp only [pyCapitalize, List.map_cons, List.map_map]
    rw [toLower_toUpper]
    have hcomp : Char.toLower ∘ Char.toLower = Char.toLower := funext toLower_toLower
    rw [hcomp]

/-! ### Fixed points of strip and capitalize -/

theorem dropWhile_head_false {p : Char → Bool} : ∀ {l : List Char} {c : Char} {rest : List Char},
    List.dropWhile p l = c :: rest → p c = false := by
  intro l
  induction l with
  | nil => intro c rest h; cases h
  | cons a as ih =>
    intro c rest h
    rw [List.dropWhile_cons] at h
    split_ifs at h with ha
    · exact ih h
    · injection h with h1 h2
      subst h1
      simpa using ha

theorem dropWhile_fixed_of_head {p : Char → Bool} (v : List Char)
    (h : ∀ a, v.head? = some a → p a = false) : List.dropWhile p v = v := by
  cases v with
  | nil => rfl
  | cons a as =>
    rw [List.dropWhile_cons]
    simp [h a rfl]

theorem dropWhile_idem (p : Char → Bool) (l : List Char) :
    List.dropWhile p (List.dropWhile p l) = List.dropWhile p l := by
  apply dropWhile_fixed_of_head
  intro a ha
  cases hd : List.dropWhile p l with
  | nil => rw [hd] at ha; cases ha
  | cons c rest =>
    rw [hd] at ha
    simp only [List.head?_cons] at ha
    obtain rfl : c = a := Option.some.inj ha
    exact dropWhile_head_false hd

theorem pyStrip_no_leading (l : List Char) :
    List.dropWhile pyIsSpace (pyStrip l) = pyStrip l := by
  apply dropWhile_fixed_of_head
  intro a ha
  cases hs : pyStrip l with
  | nil => rw [hs] at ha; cases ha
  | cons c cs =>
    rw [hs] at ha
    simp only [List.head?_cons] at ha
    obtain rfl : c = a := Option.some.inj ha
    have hd := strip_decomp l
    rw [hs, List.cons_append] at hd
    exact dropWhile_head_false hd

theorem pyStrip_no_trailing (l : List Char) :
    List.dropWhile pyIsSpace (List.reverse (pyStrip l)) = List.reverse (pyStrip l) := by
  unfold pyStrip
  rw [List.reverse_reverse]
  exact dropWhile_idem pyIsSpace _

theorem pyStrip_fixed_parts (x : List Char)
    (h1 : List.dropWhile pyIsSpace x = x)
    (h2 : List.dropWhile pyIsSpace (List.reverse x) = List.reverse x) :
    pyStrip x = x := by
  unfold pyStrip
  rw [h1, h2, List.reverse_reverse]

theorem pyStrip_cap_strip (z : List Char) :
    pyStrip (pyCapitalize (pyStrip z)) = pyCapitalize (pyStrip z) := by
  cases hy : pyStrip z with
  | nil => rfl
  | cons c cs =>
    have hc : pyIsSpace c = false := by
      have hfix := pyStrip_no_leading z
      rw [hy] at hfix
      exact dropWhile_head_false hfix
    apply pyStrip_fixed_parts
    · apply dropWhile_fixed_of_head
      intro a ha
      simp only [pyCapitalize, List.head?_cons] at ha
      obtain rfl : Char.toUpper c = a := Option.some.inj ha
      rw [pyIsSpace_toUpper]
      exact hc
    · have htr := pyStrip_no_trailing z
      rw [hy] at htr
      apply dropWhile_fixed_of_head
      intro a ha
      cases hrc : List.reverse cs with
      | nil =>
        have hcs : cs = [] := by simpa using congrArg List.reverse hrc
        subst hcs
        simp only [pyCapitalize, List.map_nil, List.reverse_cons, List.reverse_nil,
          List.nil_append, List.head?_cons] at ha
        obtain rfl : Char.toUpper c = a := Option.some.inj ha
        rw [pyIsSpace_toUpper]
        exact hc
      | cons d ds =>
        have hd : pyIsSpace d = false := by
          have hrev : List.reverse (c :: cs) = d :: (ds ++ [c]) := by
            rw [List.reverse_cons, hrc, List.cons_append]
          rw [hrev] at htr
          exact dropWhile_head_false htr
        have hrx : List.reverse (pyCapitalize (c :: cs)) =
            Char.toLower d :: (List.map Char.toLower ds ++ [Char.toUpper c]) := by
          simp only [pyCapitalize, List.reverse_cons, ← List.map_reverse, hrc,
            List.map_cons, List.cons_append]
        rw [hrx] at ha
        simp only [List.head?_cons] at ha
        obtain rfl : Char.toLower d = a := Option.some.inj ha
        rw [pyIsSpace_toLower]
        exact hd

theorem pyCapitalize_idem (l : List Char) :
    pyCapitalize (pyCapitalize l) = pyCapitalize l := by
  cases l with
  | nil => rfl
  | cons c rest =>
    simp only [pyCapitalize, List.map_map]
    rw [toUpper_toUpper]
    have hcomp : Char.toLower ∘ Char.toLower = Char.toLower := funext toLower_toLower
    rw [hcomp]

theorem noMatch_clean_caption (s : List Char) :
    noMatchFrom false (clean_caption s) = true := by
  have h1 : noMatchFrom false (subAll s) = true := scanNoMatch false s
  have h2 := noMatch_pyStrip _ h1
  show noMatchFrom false (pyCapitalize (pyStrip (subAll s))) = true
  rw [noMatch_sameLow _ (pyStrip (subAll s)) false (pyCapitalize_sameLow _)]
  exact h2

theorem subAll_clean_caption (s : List Char) :
    subAll (clean_caption s) = clean_caption s :=
  scanFixedOfNoMatch (clean_caption s) false (noMatch_clean_caption s)

/-! ### The program: process_image, generate_batch_captions, __main__ -/

/-- A `(path, caption)` result record, as built in `generate_batch_captions`. -/
structure CaptionRecord where
  path : List Char
  caption : List Char
deriving DecidableEq

/-- The external, fallible part of `process_image`: `Image.open(path).convert("RGB")`,
preprocessing, `model.generate`, `processor.decode`.  An oracle maps a path to
the raw decoded caption string, or to the message of the exception raised. -/
abbrev Env : Type := List Char → Except (List Char) (List Char)

/-- The stderr line `f"Error processing {path}: {str(e)}"`. -/
def errLine (path msg : List Char) : List Char :=
  ("Error processing ".data) ++ path ++ (": ".data) ++ msg

/-- `str(ValueError("Empty caption generated"))`. -/
def emptyCaptionMsg : List Char := ("Empty caption generated".data)

/-- `process_image(path)`: run the external pipeline, clean the caption, raise
(and catch) on an empty cleaned caption; any exception is caught, one line is
printed to stderr and `None` is returned.  Result: the returned value
(`none` = Python `None`) together with the stderr lines emitted. -/
def process_image (env : Env) (path : List Char) : Option (List Char) × List (List Char) :=
  match env path with
  | Except.error msg => (none, [errLine path msg])
  | Except.ok raw =>
    let cleaned := clean_caption raw
    if pyStrip cleaned = [] then (none, [errLine path emptyCaptionMsg])
    else (some cleaned, [])

/-- `generate_batch_captions(image_paths)`: sequential loop appending a record
exactly when `process_image` returned non-`None`.  Also collects the stderr
lines emitted by the `process_image` calls, in order. -/
def generate_batch_captions (env : Env) : List (List Char) → List CaptionRecord × List (List Char)
  | [] => ([], [])
  | p :: ps =>
    let r := process_image env p
    let rest := generate_batch_captions env ps
    match r.1 with
    | some c => (⟨p, c⟩ :: rest.1, r.2 ++ rest.2)
    | none => (rest.1, r.2 ++ rest.2)

/-- Minimal model of `json.dumps` string escaping (quote and backslash; the
concrete strings in this development contain neither). -/
def escapeJson : List Char → List Char
  | [] => []
  | c :: rest => (if c = '"' ∨ c = '\\' then ['\\', c] else [c]) ++ escapeJson rest

def jsonStr (s : List Char) : List Char := '"' :: (escapeJson s ++ ['"'])

/-- `json.dumps({"error": msg})`. -/
def jsonErrObj (msg : List Char) : List Char :=
  ("\x7b\"error\": ".data) ++ jsonStr msg ++ ("\x7d".data)

/-- `json.dumps` of one `{"path": ..., "caption": ...}` record. -/
def jsonRecord (r : CaptionRecord) : List Char :=
  ("\x7b\"path\": ".data) ++ jsonStr r.path ++ (", \"caption\": ".data) ++
    jsonStr r.caption ++ ("\x7d".data)

/-- `json.dumps` of the batch result list. -/
def jsonRecordList (rs : List CaptionRecord) : List Char :=
  '[' :: (List.intercalate (", ".data) (rs.map jsonRecord) ++ [']'])

/-- `str(IndexError("list index out of range"))`, raised by `sys.argv[1]`
when no image path argument is present. -/
def indexErrorMsg : List Char := ("list index out of range".data)

/-- Observable outcome of one process run: stdout lines, stderr lines, exit
status. -/
structure RunOut where
  stdoutLines : List (List Char)
  stderrLines : List (List Char)
  exitCode : Nat
deriving DecidableEq

/-- The `__main__` block: batch mode when `len(sys.argv) > 2`, else single
mode on `sys.argv[1]` (whose absence raises `IndexError`, caught by the
top-level `except` which prints `json.dumps({"error": ...})` to stderr and
exits with status 1).  In single mode a caption is printed only if truthy
(non-`None` and non-empty). -/
def mainRun (env : Env) (argv : List (List Char)) : RunOut :=
  if argv.length > 2 then
    let br := generate_batch_captions env (argv.drop 1)
    ⟨[jsonRecordList br.1], br.2, 0⟩
  else
    match argv.get? 1 with
    | none => ⟨[], [jsonErrObj indexErrorMsg], 1⟩
    | some p =>
      let r := process_image env p
      match r.1 with
      | some c => ⟨if c.isEmpty then [] else [c], r.2, 0⟩
      | none => ⟨[], r.2, 0⟩

/-! ### Specification-side definitions used by individual claims -/

/-- Spec statement of the batch result (claim C1): exactly the records for
the paths whose `process_image` result is non-null, in input order. -/
def batchSpec (env : Env) (paths : List (List Char)) : List CaptionRecord :=
  paths.filterMap (fun p => ((process_image env p).1).map (fun c => ⟨p, c⟩))

/-- Claim C5's description of the last step of `clean_caption`: uppercase the
first character of the stripped, boilerplate-free text and leave every other
character unchanged. -/
def cleanCaptionSpecC5 (l : List Char) : List Char :=
  match pyStrip (subAll l) with
  | [] => []
  | c :: rest => Char.toUpper c :: rest

/-- Amended description of `clean_caption`: uppercase the first character and
lowercase all remaining characters of the stripped, boilerplate-free text
(Python `str.capitalize`). -/
def cleanCaptionSpecAmended (l : List Char) : List Char :=
  (List.take 1 (pyStrip (subAll l))).map Char.toUpper ++
    (List.drop 1 (pyStrip (subAll l))).map Char.toLower

/-- Case-insensitive substring containment (no word-boundary requirement), the
plain reading of claim C2's "does not contain the literal phrases". -/
def containsCI (p : List Char) : List Char → Bool
  | [] => startsWithCI p []
  | c :: rest => startsWithCI p (c :: rest) || containsCI p rest

/-! ### Helper lemmas about the program functions -/

theorem process_image_stderr_of_none (env : Env) (path : List Char)
    (h : (process_image env path).1 = none) :
    ∃ m, (process_image env path).2 = [errLine path m] := by
  unfold process_image at h ⊢
  cases henv : env path with
  | error m => exact ⟨m, rfl⟩
  | ok raw =>
    rw [henv] at h
    dsimp only at h ⊢
    split_ifs at h ⊢ with hs
    exact ⟨emptyCaptionMsg, rfl⟩

theorem process_image_some_elim (env : Env) (path c : List Char)
    (h : (process_image env path).1 = some c) :
    ∃ raw, env path = Except.ok raw ∧ c = clean_caption raw ∧
      pyStrip (clean_caption raw) ≠ [] ∧ process_image env path = (some c, []) := by
  unfold process_image at h ⊢
  cases henv : env path with
  | error m =>
    rw [henv] at h
    simp at h
  | ok raw =>
    rw [henv] at h
    dsimp only at h ⊢
    split_ifs at h ⊢ with hs
    have hc : clean_caption raw = c := by simpa using h
    exact ⟨raw, rfl, hc.symm, hs, by rw [hc]⟩

theorem errLine_contains_path (path m : List Char) :
    ∃ u v, errLine path m = u ++ path ++ v :=
  ⟨("Error processing ".data), (": ".data) ++ m, by simp [errLine]⟩

theorem mainRun_pair (env : Env) (prog p : List Char) :
    mainRun env [prog, p] =
      match (process_image env p).1 with
      | some c => ⟨if c.isEmpty then [] else [c], (process_image env p).2, 0⟩
      | none => ⟨[], (process_image env p).2, 0⟩ := rfl

theorem mainRun_exit_zero (env : Env) (argv : List (List Char)) (p : List Char)
    (h : argv.get? 1 = some p) : (mainRun env argv).exitCode = 0 := by
  unfold mainRun
  split_ifs with hlen
  · rfl
  · rw [h]
    dsimp only
    cases hr : (process_image env p).1 <;> rfl

theorem batchSpec_cons_some (env : Env) (p c : List Char) (ps : List (List Char))
    (hp : (process_image env p).1 = some c) :
    batchSpec env (p :: ps) = ⟨p, c⟩ :: batchSpec env ps := by
  simp [batchSpec, List.filterMap_cons, hp]

theorem batchSpec_cons_none (env : Env) (p : List Char) (ps : List (List Char))
    (hp : (process_image env p).1 = none) :
    batchSpec env (p :: ps) = batchSpec env ps := by
  simp [batchSpec, List.filterMap_cons, hp]

theorem gbc_cons_some (env : Env) (p c : List Char) (ps : List (List Char))
    (hp : (process_image env p).1 = some c) :
    generate_batch_captions env (p :: ps) =
      (⟨p, c⟩ :: (generate_batch_captions env ps).1,
       (process_image env p).2 ++ (generate_batch_captions env ps).2) := by
  simp only [generate_batch_captions]
  rw [hp]

theorem gbc_cons_none (env : Env) (p : List Char) (ps : List (List Char))
    (hp : (process_image env p).1 = none) :
    generate_batch_captions env (p :: ps) =
      ((generate_batch_captions env ps).1,
       (process_image env p).2 ++ (generate_batch_captions env ps).2) := by
  simp only [generate_batch_captions]
  rw [hp]

/-! ### Claim theorems -/

/-- C1: for every input list of paths, `generate_batch_captions` returns
exactly the list of `(path, caption)` records for those paths where
`process_image` returned a non-null caption, in the same relative order as
the input list (expressed by equality with the `filterMap` specification
`batchSpec`); hence the output length is at most the input length, and no
record for a path that `process_image` mapped to null ever appears. -/
theorem generate_batch_captions_correct (env : Env) (paths : List (List Char)) :
    (generate_batch_captions env paths).1 = batchSpec env paths ∧
    (generate_batch_captions env paths).1.length ≤ paths.length ∧
    ∀ r, r ∈ (generate_batch_captions env paths).1 →
      (process_image env r.path).1 = some r.caption := by
  induction paths with
  | nil =>
    refine ⟨rfl, by simp [generate_batch_captions], ?_⟩
    intro r hr
    simp [generate_batch_captions] at hr
  | cons p ps ih =>
    obtain ⟨ih1, ih2, ih3⟩ := ih
    cases hp : (process_image env p).1 with
    | some c =>
      rw [gbc_cons_some env p c ps hp, batchSpec_cons_some env p c ps hp]
      refine ⟨?_, ?_, ?_⟩
      · dsimp only
        rw [ih1]
      · dsimp only
        simp only [List.length_cons]
        omega
      · intro r hr
        dsimp only at hr
        rcases List.mem_cons.mp hr with hre | hr2
        · subst hre
          simpa using hp
        · exact ih3 r hr2
    | none =>
      rw [gbc_cons_none env p ps hp, batchSpec_cons_none env p ps hp]
      refine ⟨?_, ?_, ?_⟩
      · dsimp only
        exact ih1
      · dsimp only
        simp only [List.length_cons]
        omega
      · intro r hr
        dsimp only at hr
        exact ih3 r hr

def envW1 : Env := fun p =>
  if p = ("good.png".data) then Except.ok ("a photo of a cat".data)
  else Except.error ("No such file".data)

def pathsW1 : List (List Char) := [("good.png".data), ("bad.png".data)]

/-- C1 witness: on a batch with one succeeding and one failing path, the
record of the succeeding path is in the output and maps back to its caption,
and the output length is bounded by the input length. -/
theorem generate_batch_captions_correct_witness :
    (process_image envW1 ("good.png".data)).1 = some ("A cat".data) ∧
    (generate_batch_captions envW1 pathsW1).1.length ≤ 2 := by
  have h := generate_batch_captions_correct envW1 pathsW1
  refine ⟨?_, by simpa using h.2.1⟩
  have hm := h.2.2 ⟨("good.png".data), ("A cat".data)⟩ (by decide)
  simpa using hm

def envX2 : Env := fun _ => Except.ok ("xa photo ofy".data)

/-- C2 counterexample: with raw model output `"xa photo ofy"` (no word
boundary around the phrase), `process_image` returns `"Xa photo ofy"`, which
DOES contain the literal phrase `"a photo of"` under case-insensitive
comparison, so the claim as stated (no containment at all) is false. -/
theorem process_image_phrase_cex :
    (process_image envX2 ("img.png".data)).1 = some ("Xa photo ofy".data) ∧
    containsCI ("a photo of".data) ("Xa photo ofy".data) = true := by decide

/-- C2 amended: whenever `process_image` returns a non-null result, that
result is a non-empty, capitalized string that contains no word-boundary
delimited, case-insensitive occurrence of any of the phrases `"a photo of"`,
`"an image of"`, `"a picture of"`, `"a photograph of"` (`noMatchFrom`). -/
theorem process_image_caption_shape (env : Env) (path c : List Char)
    (h : (process_image env path).1 = some c) :
    c ≠ [] ∧ pyCapitalize c = c ∧ noMatchFrom false c = true := by
  obtain ⟨raw, henv, hc, hs, hfull⟩ := process_image_some_elim env path c h
  subst hc
  refine ⟨?_, ?_, noMatch_clean_caption raw⟩
  · intro hnil
    exact hs (by rw [hnil]; rfl)
  · exact pyCapitalize_idem (pyStrip (subAll raw))

def envW2 : Env := fun _ => Except.ok ("a photo of a dog".data)

/-- C2 witness at a concrete oracle. -/
theorem process_image_caption_shape_witness :
    ("A dog".data ≠ ([] : List Char)) ∧
    pyCapitalize ("A dog".data) = ("A dog".data) ∧
    noMatchFrom false ("A dog".data) = true :=
  process_image_caption_shape envW2 ("img.png".data) ("A dog".data) (by decide)

/-- C3: `clean_caption` is idempotent. -/
theorem clean_caption_idempotent (s : List Char) :
    clean_caption (clean_caption s) = clean_caption s := by
  show pyCapitalize (pyStrip (subAll (clean_caption s))) = clean_caption s
  rw [subAll_clean_caption]
  show pyCapitalize (pyStrip (pyCapitalize (pyStrip (subAll s)))) = clean_caption s
  rw [pyStrip_cap_strip, pyCapitalize_idem]
  rfl

/-- C4: `process_image` never propagates an exception: an oracle exception is
caught and turns into a null result; whenever the result is null, exactly one
error line is written to the error stream and it contains the path; and a
per-image failure never affects the process exit status (single or batch
mode, i.e. whenever an image argument is present, the exit status is 0). -/
theorem process_image_isolates_errors (env : Env) (path : List Char) :
    (∀ m, env path = Except.error m → process_image env path = (none, [errLine path m])) ∧
    ((process_image env path).1 = none →
      ∃ m, (process_image env path).2 = [errLine path m] ∧
        ∃ u v, errLine path m = u ++ path ++ v) ∧
    (∀ argv p, argv.get? 1 = some p → (mainRun env argv).exitCode = 0) := by
  refine ⟨?_, ?_, ?_⟩
  · intro m hm
    unfold process_image
    rw [hm]
  · intro h
    obtain ⟨m, hm⟩ := process_image_stderr_of_none env path h
    exact ⟨m, hm, errLine_contains_path path m⟩
  · intro argv p h
    exact mainRun_exit_zero env argv p h

def envW4 : Env := fun _ => Except.error ("cannot identify image file".data)

/-- C4 witness at a concrete failing oracle. -/
theorem process_image_isolates_errors_witness :
    process_image envW4 ("img.png".data) =
      (none, [errLine ("img.png".data) ("cannot identify image file".data)]) ∧
    (mainRun envW4 [("prog".data), ("img.png".data)]).exitCode = 0 := by
  have h := process_image_isolates_errors envW4 ("img.png".data)
  exact ⟨h.1 ("cannot identify image file".data) rfl,
    h.2.2 [("prog".data), ("img.png".data)] ("img.png".data) (by decide)⟩

/-- C5 counterexample: on input `"NYC at night"` (no boilerplate), the code
returns `"Nyc at night"` — `str.capitalize` LOWERCASES every character after
the first — while the claim's reading (only the first character changes)
would give `"NYC at night"`. -/
theorem clean_caption_changes_tail_cex :
    clean_caption ("NYC at night".data) ≠ cleanCaptionSpecC5 ("NYC at night".data) := by decide

/-- C5 amended: `clean_caption` equals boilerplate removal, whitespace trim,
then uppercasing the FIRST character and lowercasing ALL remaining
characters of the intermediate result. -/
theorem clean_caption_characterization (l : List Char) :
    clean_caption l = cleanCaptionSpecAmended l := by
  unfold clean_caption cleanCaptionSpecAmended
  cases hy : pyStrip (subAll l) with
  | nil => rfl
  | cons c rest => simp [pyCapitalize]

/-- C6 counterexample: the regex removes only `"a photo of"`, keeping the
following article, so the output is not `"Dog running"`. -/
theorem clean_caption_dog_example_cex :
    clean_caption ("a photo of a dog running".data) ≠ ("Dog running".data) := by decide

/-- C6 amended: `clean_caption "a photo of a dog running" = "A dog running"`. -/
theorem clean_caption_dog_example :
    clean_caption ("a photo of a dog running".data) = ("A dog running".data) := by decide

/-- C7: `clean_caption "AN IMAGE OF a cat" = "A cat"`. -/
theorem clean_caption_cat_example :
    clean_caption ("AN IMAGE OF a cat".data) = ("A cat".data) := by decide

/-- C8: in single-image mode, when `process_image` fails for the given path,
the program prints nothing to standard output, writes exactly one line to the
error stream, and exits with status 0. -/
theorem mainRun_single_failure (env : Env) (prog p : List Char)
    (h : (process_image env p).1 = none) :
    (mainRun env [prog, p]).stdoutLines = [] ∧
    (mainRun env [prog, p]).stderrLines.length = 1 ∧
    (mainRun env [prog, p]).exitCode = 0 := by
  obtain ⟨m, hm⟩ := process_image_stderr_of_none env p h
  rw [mainRun_pair env prog p, h]
  rw [hm]
  exact ⟨rfl, rfl, rfl⟩

def envW8 : Env := fun _ => Except.error ("Permission denied".data)

/-- C8 witness at a concrete unreadable-file oracle. -/
theorem mainRun_single_failure_witness :
    (mainRun envW8 [("prog".data), ("img.png".data)]).stdoutLines = [] ∧
    (mainRun envW8 [("prog".data), ("img.png".data)]).stderrLines.length = 1 ∧
    (mainRun envW8 [("prog".data), ("img.png".data)]).exitCode = 0 :=
  mainRun_single_failure envW8 ("prog".data) ("img.png".data) (by decide)

/-- C9: invoked with no image-path argument, the program exits with status 1
and prints the structured `{"error": ...}` object (here for the `IndexError`
message of `sys.argv[1]`) to the error stream, and nothing to stdout. -/
theorem mainRun_missing_argument (env : Env) (prog : List Char) :
    mainRun env [prog] = ⟨[], [jsonErrObj indexErrorMsg], 1⟩ := rfl

/-- C10: `process_image` never returns the empty or a whitespace-only string,
and consequently in single-image mode a non-null caption is always printed
(the truthiness test cannot suppress a successful caption). -/
theorem process_image_no_empty_caption (env : Env) (prog p c : List Char)
    (h : (process_image env p).1 = some c) :
    c ≠ [] ∧ pyStrip c ≠ [] ∧ (mainRun env [prog, p]).stdoutLines = [c] := by
  obtain ⟨raw, henv, hc, hs, hfull⟩ := process_image_some_elim env p c h
  subst hc
  have hne : clean_caption raw ≠ [] := fun hnil => hs (by rw [hnil]; rfl)
  refine ⟨hne, hs, ?_⟩
  cases hcc : clean_caption raw with
  | nil => exact absurd hcc hne
  | cons d ds =>
    rw [mainRun_pair env prog p, h, hcc]
    rfl

def envW10 : Env := fun _ => Except.ok ("an image of a boat".data)

/-- C10 witness at a concrete succeeding oracle. -/
theorem process_image_no_empty_caption_witness :
    ("A boat".data ≠ ([] : List Char)) ∧
    pyStrip ("A boat".data) ≠ [] ∧
    (mainRun envW10 [("prog".data), ("boat.png".data)]).stdoutLines = [("A boat".data)] :=
  process_image_no_empty_caption envW10 ("prog".data) ("boat.png".data) ("A boat".data) (by decide)
